import Mathlib

/-!
# Embedding of `crypto/openssl/curve.go`

Shallow embedding of the secret (scalar) and point operations of the OpenSSL-backed
curve group, with the data-embedding protocol `Pick` / `Data`.

* Go `int` values are `Int`; Go's `/` on `int` truncates toward zero (`Int.tdiv`).
* A `[]byte` is a `List Nat`; every store of a machine byte is reduced `% 256`.
  A slice that may be `nil` is an `Option (List Nat)`.
* A Go run-time panic (index or slice bounds, explicit `panic`) is `Outcome.panic`.
* The unbounded `for` loop of `Pick` takes a fuel argument; running out of fuel is
  `Outcome.diverge`.
* The OpenSSL curve-point engine is a parameter (`Group`); what the proofs need of it
  is stated as explicit contracts (`Group.DecodesX`, `Group.DecodesOnCurve`).
-/

namespace openssl

set_option maxRecDepth 100000

/-- Outcome of running a Go function: a returned value, a run-time panic, or (for the
retry loop of `Pick` only) exhaustion of the fuel. -/
inductive Outcome (α : Type) where
  | ret : α → Outcome α
  | panic : Outcome α
  | diverge : Outcome α
deriving DecidableEq

deriving instance DecidableEq for Except

/-- Sequencing of outcomes. -/
def Outcome.bind {α β : Type} (o : Outcome α) (f : α → Outcome β) : Outcome β :=
  match o with
  | Outcome.ret a => f a
  | Outcome.panic => Outcome.panic
  | Outcome.diverge => Outcome.diverge

/-- Value held by an `EC_POINT` handle: the identity or an affine pair. -/
inductive Point where
  | infinity : Point
  | affine (x y : Nat) : Point
deriving DecidableEq

/-- The `EC_GROUP` handle as the code uses it: the field prime and group order it reports
(`EC_GROUP_get_curve_GFp`, `EC_GROUP_get_order`), its octet decoder
(`EC_POINT_oct2point`; `Except.error` carries the text `getErrString` would fetch when the
call returns 0) and its on-curve test (`EC_POINT_is_on_curve`). -/
structure Group where
  field : Nat
  order : Nat
  oct2point : List Nat → Except String Point
  is_on_curve : Point → Bool

/-- The `curve` struct (the `BN_CTX` scratch context carries no value and is omitted). -/
structure curve where
  g : Group
  p : Nat
  n : Nat
  plen : Int
  nlen : Int

/-- Contract of the engine's decoder on a compressed encoding (flag byte 2 or 3): when the
call succeeds the point is affine and its x-coordinate is the big-endian value of the bytes
that follow the flag byte. -/
def Group.DecodesX (g : Group) : Prop :=
  ∀ buf pt, g.oct2point buf = Except.ok pt →
    (buf.head? = some 2 ∨ buf.head? = some 3) →
    ∃ y, pt = Point.affine (buf.tail.foldl (fun acc b => acc * 256 + b) 0) y

/-- Contract of the engine's decoder: a point it accepts passes its on-curve test. -/
def Group.DecodesOnCurve (g : Group) : Prop :=
  ∀ buf pt, g.oct2point buf = Except.ok pt → g.is_on_curve pt = true

/-! ## Big-integer helpers (`bignum`, declared in another file of the package) -/

/-- Number of halvings that take `n` to 0, with a recursion budget `fuel`. -/
def bitLenAux : Nat → Nat → Nat
  | 0, _ => 0
  | fuel + 1, n => if n = 0 then 0 else bitLenAux fuel (n / 2) + 1

/-- Modelled from the spec: the big-integer engine's bit-length query (`bignum.BitLen`,
missing from the sources at hand): the number of bits of `n`, 0 for `n = 0`. -/
def bignum.BitLen (n : Nat) : Nat :=
  bitLenAux n n

/-- Big-endian bytes of `n` on exactly `w` bytes (the value is reduced modulo `256 ^ w`). -/
def toBE : Nat → Nat → List Nat
  | 0, _ => []
  | w + 1, n => (n / 256 ^ w % 256) :: toBE w n

/-- Modelled from the spec: the big-integer engine's big-endian byte decode
(`bignum.SetBytes`, missing from the sources at hand). -/
def fromBE (bs : List Nat) : Nat :=
  bs.foldl (fun acc b => acc * 256 + b) 0

/-- Modelled from the spec: the big-integer engine's big-endian byte encode
(`bignum.Bytes`, missing from the sources at hand): the minimal-length big-endian
encoding, `(BitLen + 7) / 8` bytes. -/
def bignum.Bytes (n : Nat) : List Nat :=
  toBE ((bignum.BitLen n + 7) / 8) n

/-- Modelled from the spec: the big-integer engine's comparison (`bignum.Cmp`, missing
from the sources at hand): negative, zero or positive. -/
def bignum.Cmp (a b : Nat) : Int :=
  if a < b then -1 else if a = b then 0 else 1

/-- The engine's `BN_mod_add`: the non-negative residue of `a + b` modulo `m`; the call
fails (returns 0) for a zero modulus. -/
def BN_mod_add (a b m : Nat) : Option Nat :=
  if m = 0 then none else some ((a + b) % m)

/-- The engine's `BN_mod_sub`: the non-negative residue of `a - b` modulo `m`; the call
fails (returns 0) for a zero modulus. -/
def BN_mod_sub (a b m : Nat) : Option Nat :=
  if m = 0 then none else some ((((a : Int) - (b : Int)) % (m : Int)).toNat)

/-! ## Go slice primitives with their bounds checks -/

/-- Go `len` of a possibly-nil slice. -/
def len (data : Option (List Nat)) : Int :=
  match data with
  | none => 0
  | some d => (d.length : Int)

/-- Go `b[i]`: `none` is the index-out-of-range panic. -/
def index (b : List Nat) (i : Int) : Option Nat :=
  if 0 ≤ i then b[i.toNat]? else none

/-- Go `b[i] = v`: `none` is the index-out-of-range panic. -/
def store (b : List Nat) (i : Int) (v : Nat) : Option (List Nat) :=
  if 0 ≤ i ∧ i < (b.length : Int) then some (b.set i.toNat v) else none

/-- Go `b[lo:hi]`: `none` is the slice-bounds panic. -/
def slice (b : List Nat) (lo hi : Int) : Option (List Nat) :=
  if 0 ≤ lo ∧ lo ≤ hi ∧ hi ≤ (b.length : Int) then
    some ((b.drop lo.toNat).take (hi - lo).toNat)
  else none

/-- Go `copy(b[lo:hi], src)`: overwrites `min (hi - lo) (len src)` bytes of `b` from index
`lo`; `none` is the slice-bounds panic of `b[lo:hi]`. -/
def copyInto (b : List Nat) (lo hi : Int) (src : List Nat) : Option (List Nat) :=
  if 0 ≤ lo ∧ lo ≤ hi ∧ hi ≤ (b.length : Int) then
    let k := min (hi - lo).toNat src.length
    some (b.take lo.toNat ++ src.take k ++ b.drop (lo.toNat + k))
  else none

/-- Go `data[dl:]` on a possibly-nil slice: `none` is the slice-bounds panic; slicing
`nil` at 0 gives `nil`. -/
def sliceFrom (data : Option (List Nat)) (dl : Int) : Option (Option (List Nat)) :=
  if 0 ≤ dl ∧ dl ≤ len data then some (data.map (fun d => d.drop dl.toNat)) else none

/-- `cipher.Stream.XORKeyStream(b, b)` with the key stream `rand` read from position
`pos`: each byte is XORed with the next key-stream byte. -/
def XORKeyStream (rand : Nat → Nat) : Nat → List Nat → List Nat
  | _, [] => []
  | pos, x :: xs => ((x ^^^ rand pos) % 256) :: XORKeyStream rand (pos + 1) xs

/-! ## The curve descriptor -/

/-- `curve.initNamedCurve`, given the group the engine resolved for the curve id. -/
def curve.initNamedCurve (g : Group) : curve :=
  { g := g
    p := g.field
    n := g.order
    plen := Int.tdiv ((bignum.BitLen g.field : Int) + 7) 8
    nlen := Int.tdiv ((bignum.BitLen g.order : Int) + 7) 8 }

/-- `curve.PointLen`. -/
def curve.PointLen (c : curve) : Int := 1 + c.plen

/-- `curve.SecretLen`. -/
def curve.SecretLen (c : curve) : Int := c.nlen

/-! ## Secrets -/

/-- `secret.Equal`. -/
def secret.Equal (s s2 : Nat) : Bool :=
  decide (bignum.Cmp s s2 = 0)

/-- `secret.Add`: the receiver's new value. -/
def secret.Add (c : curve) (x y : Nat) : Outcome Nat :=
  match BN_mod_add x y c.n with
  | none => Outcome.panic
  | some r => Outcome.ret r

/-- `secret.Neg`: the receiver's new value. -/
def secret.Neg (c : curve) (x : Nat) : Outcome Nat :=
  match BN_mod_sub c.n x c.n with
  | none => Outcome.panic
  | some r => Outcome.ret r

/-- `secret.Decode`: the receiver's new value. -/
def secret.Decode (buf : List Nat) : Nat := fromBE buf

/-- `newSecret`: `bignum.Init` leaves the value 0. -/
def newSecret : Nat := 0

/-! ## Points -/

/-- `point.Valid`. -/
def point.Valid (c : curve) (pt : Point) : Bool := c.g.is_on_curve pt

/-- `point.GetX`: the engine's affine-coordinate call fails on the identity and the code
panics. -/
def point.GetX (pt : Point) : Outcome Nat :=
  match pt with
  | Point.infinity => Outcome.panic
  | Point.affine x _ => Outcome.ret x

/-- `point.PickLen`. -/
def point.PickLen (c : curve) : Int :=
  Int.tdiv ((bignum.BitLen c.p : Int) - 8 - 8) 8

/-- `point.Decode`: taking `&buf[0]` panics on an empty buffer; otherwise the engine
decides. -/
def point.Decode (c : curve) (buf : List Nat) : Outcome (Except String Point) :=
  match index buf 0 with
  | none => Outcome.panic
  | some _ =>
    match c.g.oct2point buf with
    | Except.error e => Outcome.ret (Except.error e)
    | Except.ok pt => Outcome.ret (Except.ok pt)

/-- The length bound `dl` computed at the head of `point.Pick`. -/
def point.pickDl (c : curve) (data : Option (List Nat)) : Int :=
  let dl := point.PickLen c
  if dl > len data then len data else dl

/-- One pass of the loop body of `point.Pick` up to the call of `Decode`: the candidate
buffer built from the previous buffer `b` and the key stream at `pos`. -/
def point.candidate (data : Option (List Nat)) (l dl : Int) (rand : Nat → Nat)
    (pos : Nat) (b : List Nat) : Outcome (List Nat) :=
  let b1 := XORKeyStream rand pos b
  match index b1 0 with
  | none => Outcome.panic
  | some b0 =>
    match store b1 0 ((b0 &&& 1) ||| 2) with
    | none => Outcome.panic
    | some b2 =>
      match data with
      | none => Outcome.ret b2
      | some d =>
        match store b2 (l - 1) ((dl % 256).toNat) with
        | none => Outcome.panic
        | some b3 =>
          match copyInto b3 (l - dl - 1) (l - 1) d with
          | none => Outcome.panic
          | some b4 => Outcome.ret b4

/-- The `for` loop of `point.Pick`, with fuel. -/
def point.pickLoop (c : curve) (data : Option (List Nat)) (l dl : Int) (rand : Nat → Nat) :
    Nat → Nat → List Nat → Outcome (Point × Option (List Nat))
  | 0, _, _ => Outcome.diverge
  | fuel + 1, pos, b =>
    match point.candidate data l dl rand pos b with
    | Outcome.ret cand =>
      match point.Decode c cand with
      | Outcome.ret (Except.ok pt) =>
        match sliceFrom data dl with
        | none => Outcome.panic
        | some r => Outcome.ret (pt, r)
      | Outcome.ret (Except.error _) => point.pickLoop c data l dl rand fuel (pos + b.length) cand
      | Outcome.panic => Outcome.panic
      | Outcome.diverge => Outcome.diverge
    | Outcome.panic => Outcome.panic
    | Outcome.diverge => Outcome.diverge

/-- `point.Pick`: the point left in the receiver and the returned remainder. -/
def point.Pick (c : curve) (data : Option (List Nat)) (rand : Nat → Nat) (fuel : Nat) :
    Outcome (Point × Option (List Nat)) :=
  let l := curve.PointLen c
  let dl := point.pickDl c data
  if l < 0 then Outcome.panic
  else point.pickLoop c data l dl rand fuel 0 (List.replicate l.toNat 0)

/-- The text of the error `point.Data` returns. -/
def errInvalidLength : String := "invalid embedded data length"

/-- The buffer `b` of `point.Data` once padded: the bytes of the x-coordinate, with leading
zero bytes when they are fewer than `plen`. -/
def point.padded (c : curve) (x : Nat) : List Nat :=
  let b := bignum.Bytes x
  let l := c.plen
  if (b.length : Int) < l then List.replicate (l - (b.length : Int)).toNat 0 ++ b else b

/-- `point.Data`. -/
def point.Data (c : curve) (pt : Point) : Outcome (Except String (List Nat)) :=
  match point.GetX pt with
  | Outcome.ret x =>
    let b := point.padded c x
    let l := c.plen
    match index b (l - 1) with
    | none => Outcome.panic
    | some v =>
      let dl : Int := (v : Int)
      if dl > point.PickLen c then Outcome.ret (Except.error errInvalidLength)
      else
        match slice b (l - dl - 1) (l - 1) with
        | none => Outcome.panic
        | some r => Outcome.ret (Except.ok r)
  | Outcome.panic => Outcome.panic
  | Outcome.diverge => Outcome.diverge

/-! ## Concrete engines used to instantiate the contracts -/

/-- Square-and-multiply `b ^ e % m`, with a recursion budget of `fuel` bits of `e`. -/
def powMod (m : Nat) : Nat → Nat → Nat → Nat
  | 0, _, _ => 1 % m
  | fuel + 1, b, e =>
    if e = 0 then 1 % m
    else
      let h := powMod m fuel (b * b % m) (e / 2)
      if e % 2 = 1 then b * h % m else h

/-- On-curve test of the short Weierstrass curve `y^2 = x^3 + a x + b` over the integers
modulo `p`; the identity passes. -/
def onCurve (p a b : Nat) (pt : Point) : Bool :=
  match pt with
  | Point.infinity => true
  | Point.affine x y => decide (x < p ∧ y < p ∧ y * y % p = (x * x * x + a * x + b) % p)

/-- For a prime `p` with `p % 4 = 3`: the candidate square root `rhs ^ ((p + 1) / 4)` of
`rhs`, or its negative, whichever has the parity of the flag byte `f`. -/
def rootOfParity (p rhs f : Nat) : Nat :=
  let r := powMod p (bignum.BitLen p) rhs ((p + 1) / 4)
  if r % 2 = f % 2 then r else p - r

/-- Octet decoder of the curve `y^2 = x^3 + a x + b` modulo a prime `p` with `p % 4 = 3`,
in the forms `EC_POINT_oct2point` reads: the one-byte encoding of the identity; the
compressed form (flag byte 2 or 3, then the x-coordinate on as many bytes as `p` has), for
which the root of the parity the flag byte asks for is computed; the uncompressed form (flag
byte 4, then x and y) and the hybrid form (flag byte 6 or 7, then x and y, the low bit of the
flag being the parity of y). Coordinates must be below `p` and the point is checked against
the curve equation. -/
def weierstrassDecode (p a b : Nat) (buf : List Nat) : Except String Point :=
  match buf with
  | [] => Except.error "buffer too small"
  | f :: xs =>
    if f = 0 ∧ xs = [] then Except.ok Point.infinity
    else if (f = 2 ∨ f = 3) ∧ xs.length = (bignum.BitLen p + 7) / 8 then
      let x := fromBE xs
      if x < p then
        let y := rootOfParity p ((x * x * x + a * x + b) % p) f
        if onCurve p a b (Point.affine x y) then Except.ok (Point.affine x y)
        else Except.error "invalid compressed point"
      else Except.error "invalid encoding"
    else if (f = 4 ∨ f = 6 ∨ f = 7) ∧ xs.length = 2 * ((bignum.BitLen p + 7) / 8) then
      let x := fromBE (xs.take ((bignum.BitLen p + 7) / 8))
      let y := fromBE (xs.drop ((bignum.BitLen p + 7) / 8))
      if x < p ∧ y < p ∧ (f = 4 ∨ y % 2 = f % 2) then
        if onCurve p a b (Point.affine x y) then Except.ok (Point.affine x y)
        else Except.error "point is not on curve"
      else Except.error "invalid encoding"
    else Except.error "invalid encoding"

/-- The engine's view of the curve `y^2 = x^3 + a x + b` modulo `p`, of group order `n`. -/
def weierstrass (p a b n : Nat) : Group :=
  { field := p, order := n, oct2point := weierstrassDecode p a b, is_on_curve := onCurve p a b }

/-- The NIST curve P-256 (`NID_X9_62_prime256v1`), the one `InitP256` selects. -/
def P256 : Group :=
  weierstrass (2 ^ 256 - 2 ^ 224 + 2 ^ 192 + 2 ^ 96 - 1)
    (2 ^ 256 - 2 ^ 224 + 2 ^ 192 + 2 ^ 96 - 4)
    41058363725152142129326129780047268409114441015993725554835256314039467401291
    115792089210356248762697446949407573529996955224135760342422259061068512044369

/-- The 254-bit curve `y^2 = x^3 + 3` (BN254): `plen = 32`, `nlen = 32`, `PickLen = 29`. -/
def BN254 : Group :=
  weierstrass 21888242871839275222246405745257275088696311157297823662689037894645226208583
    0 3 21888242871839275222246405745257275088548364400416034343698204186575808495617

/-- The curve `y^2 = x^3 + x + 17` modulo the 9-bit prime 263; it has 241 points. -/
def tiny263 : Group := weierstrass 263 1 17 241

/-- The curve `y^2 = x^3 + x` modulo the Mersenne prime `2 ^ 2203 - 1`; it has `2 ^ 2203`
points. Its field is wider than 2064 bits, so `PickLen` exceeds 255. -/
def wide2203 : Group := weierstrass (2 ^ 2203 - 1) 1 0 (2 ^ 2203)

/-- A family of fixed key streams, one per `seed`. -/
def keyStream (seed : Nat) (i : Nat) : Nat := (i * i * 7 + i * 13 + seed) % 256

/-- A payload of `k` bytes: `1, 2, 3, ...` reduced modulo 251. -/
def payload (k : Nat) : List Nat := (List.range k).map (fun i => (i + 1) % 251)

/-- The payload `hello`. -/
def hello : List Nat := [104, 101, 108, 108, 111]

/-! ## Secrets reachable through the public operations -/

/-- Modelled from the spec: the big-integer engine's random draw below a modulus
(`bignum.RandMod`, missing from the sources at hand, called by `secret.Pick`): any value in
`[0, n)` may come out. -/
def RandModResult (n v : Nat) : Prop := v < n

/-- Values a secret of the curve `c` can hold after the public operations: the factory,
`Add`, `Neg`, `Pick` and `Decode`; `okBuf` says which byte buffers `Decode` is given. -/
inductive secret.Obtained (c : curve) (okBuf : List Nat → Prop) : Nat → Prop where
  | factory : secret.Obtained c okBuf newSecret
  | add (x y z : Nat) : secret.Obtained c okBuf x → secret.Obtained c okBuf y →
      secret.Add c x y = Outcome.ret z → secret.Obtained c okBuf z
  | neg (x z : Nat) : secret.Obtained c okBuf x →
      secret.Neg c x = Outcome.ret z → secret.Obtained c okBuf z
  | pick (v : Nat) : RandModResult c.n v → secret.Obtained c okBuf v
  | decode (buf : List Nat) : (∀ b ∈ buf, b < 256) → okBuf buf →
      secret.Obtained c okBuf (secret.Decode buf)

/-! ## Facts about bit lengths and big-endian bytes -/

theorem bitLenAux_lt (f : Nat) : ∀ n, n ≤ f → n < 2 ^ bitLenAux f n := by
  induction f with
  | zero => intro n h; simp [bitLenAux]; omega
  | succ f ih =>
    intro n h
    unfold bitLenAux
    split
    · omega
    · have h2 : n / 2 ≤ f := by omega
      have := ih (n / 2) h2
      rw [Nat.pow_succ]
      omega

theorem bitLenAux_le (f : Nat) : ∀ n, n ≤ f → n ≠ 0 → 2 ^ (bitLenAux f n - 1) ≤ n := by
  induction f with
  | zero => intro n h h0; omega
  | succ f ih =>
    intro n h h0
    unfold bitLenAux
    rw [if_neg h0]
    simp only [Nat.add_sub_cancel]
    by_cases h1 : n / 2 = 0
    · have : bitLenAux f (n / 2) = 0 := by
        rw [h1]; cases f <;> simp [bitLenAux]
      rw [this]; simp; omega
    · have h2 : n / 2 ≤ f := by omega
      have := ih (n / 2) h2 h1
      have hpos : 0 < bitLenAux f (n / 2) := by
        cases f with
        | zero => omega
        | succ f => unfold bitLenAux; rw [if_neg h1]; omega
      have e : bitLenAux f (n / 2) = (bitLenAux f (n / 2) - 1) + 1 := by omega
      rw [e, Nat.pow_succ]
      omega

theorem BitLen_lt (n : Nat) : n < 2 ^ bignum.BitLen n := bitLenAux_lt n n (Nat.le_refl n)

theorem BitLen_le (n : Nat) (h : n ≠ 0) : 2 ^ (bignum.BitLen n - 1) ≤ n :=
  bitLenAux_le n n (Nat.le_refl n) h

theorem BitLen_pos (n : Nat) (h : n ≠ 0) : 0 < bignum.BitLen n := by
  unfold bignum.BitLen
  cases n with
  | zero => omega
  | succ n => unfold bitLenAux; simp

theorem BitLen_le_of_lt_pow (n k : Nat) (h : n < 2 ^ k) : bignum.BitLen n ≤ k := by
  by_cases h0 : n = 0
  · subst h0; simp [bignum.BitLen, bitLenAux]
  · have h1 := BitLen_le n h0
    have h2 : 2 ^ (bignum.BitLen n - 1) < 2 ^ k := Nat.lt_of_le_of_lt h1 h
    have h3 := (Nat.pow_lt_pow_iff_right (by norm_num : 1 < 2)).mp h2
    have := BitLen_pos n h0
    omega

theorem BitLen_mono (a b : Nat) (h : a ≤ b) : bignum.BitLen a ≤ bignum.BitLen b :=
  BitLen_le_of_lt_pow a _ (Nat.lt_of_le_of_lt h (BitLen_lt b))

theorem pow256 (k : Nat) : 256 ^ k = 2 ^ (8 * k) := by
  rw [Nat.pow_mul]

theorem lt_pow_numBytes (n : Nat) : n < 256 ^ ((bignum.BitLen n + 7) / 8) := by
  rw [pow256]
  exact Nat.lt_of_lt_of_le (BitLen_lt n) (Nat.pow_le_pow_right (by norm_num) (by omega))

theorem numBytes_le (n w : Nat) (h : n < 256 ^ w) : (bignum.BitLen n + 7) / 8 ≤ w := by
  rw [pow256] at h
  have := BitLen_le_of_lt_pow n _ h
  omega

theorem toBE_length (w n : Nat) : (toBE w n).length = w := by
  induction w with
  | zero => rfl
  | succ w ih => simp [toBE, ih]

theorem toBE_lt (w n : Nat) : ∀ b ∈ toBE w n, b < 256 := by
  induction w with
  | zero => intro b hb; simp [toBE] at hb
  | succ w ih =>
    intro b hb
    simp only [toBE, List.mem_cons] at hb
    rcases hb with h | h
    · subst h; exact Nat.mod_lt _ (by norm_num)
    · exact ih b h

theorem toBE_add_mul (w : Nat) : ∀ r a, toBE w (r + 256 ^ w * a) = toBE w r := by
  induction w with
  | zero => intro r a; rfl
  | succ w ih =>
    intro r a
    simp only [toBE]
    congr 1
    · have e : r + 256 ^ (w + 1) * a = r + 256 ^ w * (256 * a) := by
        rw [Nat.pow_succ, Nat.mul_assoc]
      rw [e, Nat.add_mul_div_left _ _ (Nat.pos_pow_of_pos w (by norm_num)), Nat.add_mul_mod_self_left]
    · have e : r + 256 ^ (w + 1) * a = r + 256 ^ w * (256 * a) := by
        rw [Nat.pow_succ, Nat.mul_assoc]
      rw [e, ih]

theorem toBE_succ_of_lt (w n : Nat) (h : n < 256 ^ w) : toBE (w + 1) n = 0 :: toBE w n := by
  simp [toBE, Nat.div_eq_of_lt h]

theorem toBE_pad (k : Nat) (w n : Nat) (h : n < 256 ^ w) :
    List.replicate k 0 ++ toBE w n = toBE (w + k) n := by
  induction k with
  | zero => simp
  | succ k ih =>
    have h2 : n < 256 ^ (w + k) :=
      Nat.lt_of_lt_of_le h (Nat.pow_le_pow_right (by norm_num) (by omega))
    rw [← Nat.add_assoc, toBE_succ_of_lt _ _ h2, ← ih, List.replicate_succ, List.cons_append]

theorem fromBE_foldl (bs : List Nat) : ∀ acc,
    bs.foldl (fun acc b => acc * 256 + b) acc = acc * 256 ^ bs.length + fromBE bs := by
  induction bs with
  | nil => intro acc; simp [fromBE]
  | cons b bs ih =>
    intro acc
    simp only [List.foldl_cons, List.length_cons, fromBE]
    rw [ih, ih (0 * 256 + b)]
    ring

theorem fromBE_cons (b : Nat) (bs : List Nat) :
    fromBE (b :: bs) = b * 256 ^ bs.length + fromBE bs := by
  have := fromBE_foldl bs (0 * 256 + b)
  simp only [fromBE, List.foldl_cons]
  rw [this]
  simp [fromBE]

theorem fromBE_lt (bs : List Nat) (h : ∀ b ∈ bs, b < 256) : fromBE bs < 256 ^ bs.length := by
  induction bs with
  | nil => simp [fromBE]
  | cons b bs ih =>
    rw [fromBE_cons, List.length_cons, Nat.pow_succ]
    have h1 : b < 256 := h b (List.mem_cons_self _ _)
    have h2 := ih (fun x hx => h x (List.mem_cons_of_mem _ hx))
    nlinarith

theorem toBE_fromBE (bs : List Nat) (h : ∀ b ∈ bs, b < 256) :
    toBE bs.length (fromBE bs) = bs := by
  induction bs with
  | nil => rfl
  | cons b bs ih =>
    have h1 : b < 256 := h b (List.mem_cons_self _ _)
    have hbs : ∀ x ∈ bs, x < 256 := fun x hx => h x (List.mem_cons_of_mem _ hx)
    have h2 := fromBE_lt bs hbs
    rw [List.length_cons, fromBE_cons]
    simp only [toBE]
    have e : b * 256 ^ bs.length + fromBE bs = fromBE bs + 256 ^ bs.length * b := by ring
    rw [e, toBE_add_mul, ih hbs,
      Nat.add_mul_div_left _ _ (Nat.pos_pow_of_pos _ (by norm_num)), Nat.div_eq_of_lt h2]
    simp [Nat.mod_eq_of_lt h1]

/-! ## What `point.Data` computes -/

theorem toBE_getElem (w : Nat) : ∀ n i, i < w → (toBE w n)[i]? = some (n / 256 ^ (w - 1 - i) % 256) := by
  induction w with
  | zero => intro n i h; omega
  | succ w ih =>
    intro n i h
    cases i with
    | zero => simp [toBE]
    | succ i =>
      simp only [toBE, List.getElem?_cons_succ]
      rw [ih n i (by omega)]
      have e : w + 1 - 1 - (i + 1) = w - 1 - i := by omega
      rw [e]

theorem tdiv8_nonneg (a : Int) (h : 0 ≤ a) : Int.tdiv a 8 = a / 8 :=
  Int.tdiv_eq_ediv h (by norm_num)

theorem tdiv8_neg (a : Int) (h : a < 0) : Int.tdiv a 8 = -((-a) / 8) := by
  have h1 : a = -(-a) := by omega
  rw [h1, Int.neg_tdiv, tdiv8_nonneg _ (by omega)]
  simp

theorem plen_init (g : Group) :
    (curve.initNamedCurve g).plen = (((bignum.BitLen g.field + 7) / 8 : Nat) : Int) := by
  simp only [curve.initNamedCurve]
  rw [tdiv8_nonneg _ (by omega)]
  omega

theorem PickLen_init (g : Group) :
    point.PickLen (curve.initNamedCurve g) = Int.tdiv ((bignum.BitLen g.field : Int) - 8 - 8) 8 := rfl

theorem PickLen_le_plen (g : Group) (h : 1 ≤ bignum.BitLen g.field) :
    point.PickLen (curve.initNamedCurve g) ≤ (curve.initNamedCurve g).plen - 1 := by
  rw [plen_init, PickLen_init]
  by_cases h16 : (16 : Int) ≤ (bignum.BitLen g.field : Int)
  · rw [tdiv8_nonneg _ (by omega)]; omega
  · rw [tdiv8_neg _ (by omega)]; omega

theorem padded_eq (c : curve) (x : Nat) (hx : (bignum.BitLen x + 7) / 8 ≤ c.plen.toNat) :
    point.padded c x = toBE c.plen.toNat x := by
  unfold point.padded bignum.Bytes
  simp only [toBE_length]
  have hlt := lt_pow_numBytes x
  split
  · next h =>
    have e : (c.plen - (((bignum.BitLen x + 7) / 8 : Nat) : Int)).toNat + (bignum.BitLen x + 7) / 8
        = c.plen.toNat := by omega
    rw [toBE_pad _ _ _ hlt, Nat.add_comm, e]
  · next h =>
    have e : (bignum.BitLen x + 7) / 8 = c.plen.toNat := by omega
    rw [e]

theorem Data_affine (c : curve) (x y : Nat) (hl : 1 ≤ c.plen)
    (hx : (bignum.BitLen x + 7) / 8 ≤ c.plen.toNat) (hP : point.PickLen c ≤ c.plen - 1) :
    point.Data c (Point.affine x y) =
      if ((x % 256 : Nat) : Int) > point.PickLen c then Outcome.ret (Except.error errInvalidLength)
      else Outcome.ret (Except.ok
        (((toBE c.plen.toNat x).drop (c.plen.toNat - 1 - x % 256)).take (x % 256))) := by
  unfold point.Data
  simp only [point.GetX, padded_eq c x hx]
  have hi : index (toBE c.plen.toNat x) (c.plen - 1) = some (x % 256) := by
    unfold index
    rw [if_pos (by omega), toBE_getElem _ _ _ (by omega)]
    have : c.plen.toNat - 1 - (c.plen - 1).toNat = 0 := by omega
    simp [this]
  simp only [hi]
  split
  · rfl
  · next h =>
    unfold slice
    rw [if_pos (by rw [toBE_length]; omega)]
    simp only
    congr 4
    · omega
    · omega

theorem fromBE_toBE (w : Nat) : ∀ n, fromBE (toBE w n) = n % 256 ^ w := by
  induction w with
  | zero => intro n; simp [toBE, fromBE, Nat.mod_one]
  | succ w ih =>
    intro n
    simp only [toBE]
    rw [fromBE_cons, toBE_length, ih, Nat.mod_pow_succ]
    ring

theorem plen_pos_of_lt (g : Group) (x : Nat) (hx : x < g.field) :
    1 ≤ bignum.BitLen g.field := BitLen_pos _ (by omega)

theorem numBytes_le_plen (g : Group) (x : Nat) (hx : x < g.field) :
    (bignum.BitLen x + 7) / 8 ≤ (curve.initNamedCurve g).plen.toNat := by
  rw [plen_init]
  have := BitLen_mono x g.field (by omega)
  simp only [Int.toNat_ofNat]
  omega

theorem Data_init (g : Group) (x y : Nat) (hx : x < g.field) :
    point.Data (curve.initNamedCurve g) (Point.affine x y) =
      if ((x % 256 : Nat) : Int) > point.PickLen (curve.initNamedCurve g) then
        Outcome.ret (Except.error errInvalidLength)
      else Outcome.ret (Except.ok
        (((toBE (curve.initNamedCurve g).plen.toNat x).drop
          ((curve.initNamedCurve g).plen.toNat - 1 - x % 256)).take (x % 256))) := by
  have h1 := plen_pos_of_lt g x hx
  apply Data_affine
  · rw [plen_init]; omega
  · exact numBytes_le_plen g x hx
  · exact PickLen_le_plen g h1

/-! ## What `point.Pick` hands to the decoder -/

theorem XORKeyStream_length (rand : Nat → Nat) (b : List Nat) :
    ∀ pos, (XORKeyStream rand pos b).length = b.length := by
  induction b with
  | nil => intro pos; rfl
  | cons x xs ih => intro pos; simp [XORKeyStream, ih]

theorem XORKeyStream_lt (rand : Nat → Nat) (b : List Nat) :
    ∀ pos, ∀ v ∈ XORKeyStream rand pos b, v < 256 := by
  induction b with
  | nil => intro pos v hv; simp [XORKeyStream] at hv
  | cons x xs ih =>
    intro pos v hv
    simp only [XORKeyStream, List.mem_cons] at hv
    rcases hv with h | h
    · subst h; exact Nat.mod_lt _ (by norm_num)
    · exact ih _ v h

theorem flag_eq (x : Nat) : (x &&& 1) ||| 2 = 2 ∨ (x &&& 1) ||| 2 = 3 := by
  rw [Nat.and_one_is_mod]
  rcases Nat.mod_two_eq_zero_or_one x with h | h <;> rw [h]
  · left; rfl
  · right; rfl

theorem store_length (b : List Nat) (i : Int) (v : Nat) (r : List Nat)
    (h : store b i v = some r) : r.length = b.length := by
  unfold store at h
  split at h
  · injection h with h; subst h; simp
  · cases h

theorem copyInto_length (b : List Nat) (lo hi : Int) (src r : List Nat)
    (h : copyInto b lo hi src = some r) : r.length = b.length := by
  unfold copyInto at h
  split at h
  · next hc =>
    injection h with h; subst h
    simp only [List.length_append, List.length_take, List.length_drop]
    omega
  · cases h

theorem candidate_length (data : Option (List Nat)) (l dl : Int) (rand : Nat → Nat)
    (pos : Nat) (b cand : List Nat)
    (h : point.candidate data l dl rand pos b = Outcome.ret cand) : cand.length = b.length := by
  unfold point.candidate at h
  simp only at h
  split at h
  · cases h
  · split at h
    · cases h
    · next b2 hb2 =>
      have l2 := store_length _ _ _ _ hb2
      rw [XORKeyStream_length] at l2
      split at h
      · injection h with h; subst h; exact l2
      · split at h
        · cases h
        · next b3 hb3 =>
          have l3 := store_length _ _ _ _ hb3
          split at h
          · cases h
          · next b4 hb4 =>
            have l4 := copyInto_length _ _ _ _ _ hb4
            injection h with h; subst h
            omega

theorem Decode_ok (c : curve) (buf : List Nat) (pt : Point)
    (h : point.Decode c buf = Outcome.ret (Except.ok pt)) : c.g.oct2point buf = Except.ok pt := by
  unfold point.Decode at h
  split at h
  · cases h
  · split at h
    · injection h with h; cases h
    · next q hq => injection h with h; injection h with h; subst h; exact hq

theorem pickLoop_ret (c : curve) (data : Option (List Nat)) (l dl : Int) (rand : Nat → Nat)
    (pt : Point) (rem : Option (List Nat)) (L : Nat) :
    ∀ fuel pos b, b.length = L →
      point.pickLoop c data l dl rand fuel pos b = Outcome.ret (pt, rem) →
      ∃ pos2 b2 cand, b2.length = L ∧
        point.candidate data l dl rand pos2 b2 = Outcome.ret cand ∧
        c.g.oct2point cand = Except.ok pt ∧ sliceFrom data dl = some rem := by
  intro fuel
  induction fuel with
  | zero => intro pos b _ h; simp [point.pickLoop] at h
  | succ fuel ih =>
    intro pos b hb h
    unfold point.pickLoop at h
    split at h
    · next cand hc =>
      split at h
      · next q hq =>
        split at h
        · cases h
        · next r hr =>
          injection h with h
          injection h with h1 h2
          subst h1; subst h2
          exact ⟨pos, b, cand, hb, hc, Decode_ok c cand _ hq, hr⟩
      · exact ih _ _ (by rw [candidate_length _ _ _ _ _ _ _ hc, hb]) h
      · cases h
      · cases h
    · cases h
    · cases h


theorem set_last (b : List Nat) (v : Nat) (n : Nat) (h : b.length = n + 1) :
    b.set n v = b.take n ++ [v] := by
  rw [List.set_eq_take_append_cons_drop, if_pos (by omega), List.drop_of_length_le (by omega)]

theorem candidate_some (d : List Nat) (l dl : Int) (rand : Nat → Nat) (pos : Nat)
    (b cand : List Nat) (hb : (b.length : Int) = l) (hd : dl ≤ (d.length : Int))
    (h : point.candidate (some d) l dl rand pos b = Outcome.ret cand) :
    0 ≤ dl ∧ dl ≤ l - 1 ∧
    ∃ x xs, XORKeyStream rand pos b = x :: xs ∧
      cand = ((((x &&& 1) ||| 2) :: xs).take (l - dl - 1).toNat)
              ++ d.take dl.toNat ++ [(dl % 256).toNat] := by
  unfold point.candidate at h
  simp only at h
  have hlen := XORKeyStream_length rand b pos
  cases hx : XORKeyStream rand pos b with
  | nil =>
    rw [hx] at h
    simp [index] at h
  | cons x xs =>
    rw [hx] at h hlen
    simp only [List.length_cons] at hlen
    have hi : index (x :: xs) 0 = some x := by simp [index]
    have hs : store (x :: xs) 0 ((x &&& 1) ||| 2) = some (((x &&& 1) ||| 2) :: xs) := by
      simp [store]
    simp only [hi, hs] at h
    have hs2 : store (((x &&& 1) ||| 2) :: xs) (l - 1) ((dl % 256).toNat)
        = some ((((x &&& 1) ||| 2) :: xs).take (l - 1).toNat ++ [(dl % 256).toNat]) := by
      unfold store
      rw [if_pos (by simp only [List.length_cons]; omega)]
      rw [set_last _ _ _ (by simp only [List.length_cons]; omega)]
    simp only [hs2] at h
    cases hcp : copyInto ((((x &&& 1) ||| 2) :: xs).take (l - 1).toNat ++ [(dl % 256).toNat])
        (l - dl - 1) (l - 1) d with
    | none => rw [hcp] at h; cases h
    | some b4 =>
      rw [hcp] at h
      injection h with h
      subst h
      unfold copyInto at hcp
      split at hcp
      · next hc =>
        simp only [List.length_append, List.length_take, List.length_cons,
          List.length_singleton] at hc
        injection hcp with hcp
        refine ⟨by omega, by omega, x, xs, rfl, ?_⟩
        rw [← hcp]
        have hk : min (l - 1 - (l - dl - 1)).toNat d.length = dl.toNat := by omega
        simp only [hk]
        congr 1
        · congr 1
          rw [List.take_append_of_le_length
            (by simp only [List.length_take, List.length_cons]; omega), List.take_take]
          congr 1
          omega
        · apply List.drop_left'
          simp only [List.length_take, List.length_cons]
          omega
      · cases hcp

theorem PickLen_le_plen_sub_two (g : Group) :
    point.PickLen (curve.initNamedCurve g) ≤ (curve.initNamedCurve g).plen - 2 := by
  rw [plen_init, PickLen_init]
  by_cases h16 : (16 : Int) ≤ (bignum.BitLen g.field : Int)
  · rw [tdiv8_nonneg _ (by omega)]; omega
  · rw [tdiv8_neg _ (by omega)]; omega

theorem fromBE_append_singleton (bs : List Nat) (v : Nat) :
    fromBE (bs ++ [v]) = fromBE bs * 256 + v := by
  simp [fromBE, List.foldl_append]

theorem pickDl_le_len (c : curve) (data : Option (List Nat)) : point.pickDl c data ≤ len data := by
  unfold point.pickDl
  simp only
  split <;> omega

theorem pickDl_le_PickLen (c : curve) (data : Option (List Nat)) :
    point.pickDl c data ≤ point.PickLen c := by
  unfold point.pickDl
  simp only
  split <;> omega

theorem pickDl_eq_min (c : curve) (data : Option (List Nat)) :
    point.pickDl c data = min (point.PickLen c) (len data) := by
  unfold point.pickDl
  simp only
  split <;> omega

theorem Pick_ret (c : curve) (data : Option (List Nat)) (rand : Nat → Nat) (fuel : Nat)
    (pt : Point) (rem : Option (List Nat)) (hl : 0 ≤ c.plen)
    (h : point.Pick c data rand fuel = Outcome.ret (pt, rem)) :
    ∃ pos b cand, (b.length : Int) = curve.PointLen c ∧
      point.candidate data (curve.PointLen c) (point.pickDl c data) rand pos b = Outcome.ret cand ∧
      c.g.oct2point cand = Except.ok pt ∧ sliceFrom data (point.pickDl c data) = some rem := by
  unfold point.Pick at h
  simp only at h
  have hl2 : ¬ curve.PointLen c < 0 := by unfold curve.PointLen; omega
  rw [if_neg hl2] at h
  obtain ⟨pos, b, cand, hb, hc, ho, hs⟩ :=
    pickLoop_ret c data _ _ rand pt rem (curve.PointLen c).toNat fuel 0 _ (by simp) h
  exact ⟨pos, b, cand, by omega, hc, ho, hs⟩

theorem Pick_some_spec (g : Group) (hg : g.DecodesX) (d : List Nat) (rand : Nat → Nat)
    (fuel : Nat) (pt : Point) (rem : Option (List Nat))
    (hbytes : ∀ v ∈ d, v < 256)
    (hsmall : point.pickDl (curve.initNamedCurve g) (some d) ≤ 255)
    (hret : point.Pick (curve.initNamedCurve g) (some d) rand fuel = Outcome.ret (pt, rem)) :
    0 ≤ point.pickDl (curve.initNamedCurve g) (some d) ∧
    rem = some (d.drop (point.pickDl (curve.initNamedCurve g) (some d)).toNat) ∧
    point.Data (curve.initNamedCurve g) pt
      = Outcome.ret (Except.ok (d.take (point.pickDl (curve.initNamedCurve g) (some d)).toNat)) := by
  have hpl := plen_init g
  obtain ⟨pos, b, cand, hb, hc, ho, hs⟩ :=
    Pick_ret (curve.initNamedCurve g) (some d) rand fuel pt rem (by omega) hret
  have hdl1 := pickDl_le_len (curve.initNamedCurve g) (some d)
  have hdl2 := pickDl_le_PickLen (curve.initNamedCurve g) (some d)
  simp only [len] at hdl1
  generalize hdl : point.pickDl (curve.initNamedCurve g) (some d) = dl at *
  obtain ⟨h0, h1, x, xs, hx, hcand⟩ := candidate_some d _ dl rand pos b cand hb hdl1 hc
  have hP := PickLen_le_plen_sub_two g
  have hxl := XORKeyStream_length rand b pos
  rw [hx] at hxl
  simp only [List.length_cons] at hxl
  unfold curve.PointLen at hb h1 hcand
  generalize hpn : (bignum.BitLen g.field + 7) / 8 = P at *
  -- the remainder
  have hrem : rem = some (d.drop dl.toNat) := by
    unfold sliceFrom at hs
    rw [if_pos ⟨h0, by simp only [len]; omega⟩] at hs
    injection hs with hs
    rw [← hs]; rfl
  refine ⟨h0, hrem, ?_⟩
  -- shape of the candidate
  obtain ⟨k, hk⟩ : ∃ k : Nat, (1 + (curve.initNamedCurve g).plen - dl - 1).toNat = k + 1 :=
    ⟨(1 + (curve.initNamedCurve g).plen - dl - 1).toNat - 1, by omega⟩
  rw [hk, List.take_succ_cons] at hcand
  have hhead : cand.head? = some ((x &&& 1) ||| 2) := by rw [hcand]; rfl
  have htail : cand.tail = xs.take k ++ d.take dl.toNat ++ [(dl % 256).toNat] := by
    rw [hcand]; rfl
  obtain ⟨y, hy⟩ := hg cand pt ho (by
    rw [hhead]
    rcases flag_eq x with e | e <;> rw [e] <;> simp)
  subst hy
  have hxs : ∀ v ∈ xs, v < 256 := by
    intro v hv
    exact XORKeyStream_lt rand b pos v (by rw [hx]; exact List.mem_cons_of_mem _ hv)
  have hv256 : (dl % 256).toNat = dl.toNat := by omega
  have htl : cand.tail.length = (curve.initNamedCurve g).plen.toNat := by
    rw [htail]
    simp only [List.length_append, List.length_take, List.length_singleton]
    omega
  have htb : ∀ v ∈ cand.tail, v < 256 := by
    intro v hv
    rw [htail] at hv
    simp only [List.mem_append, List.mem_singleton] at hv
    rcases hv with (hv | hv) | hv
    · exact hxs v (List.mem_of_mem_take hv)
    · exact hbytes v (List.mem_of_mem_take hv)
    · omega
  have hfb : List.foldl (fun acc b => acc * 256 + b) 0 cand.tail = fromBE cand.tail := rfl
  rw [hfb]
  have hlt := fromBE_lt cand.tail htb
  rw [htl] at hlt
  rw [Data_affine _ _ _ (by omega) (numBytes_le _ _ hlt) (by omega)]
  have hmod : fromBE cand.tail % 256 = dl.toNat := by
    rw [htail, fromBE_append_singleton, hv256]
    omega
  rw [hmod, if_neg (by omega), ← htl, toBE_fromBE _ htb, htail]
  congr 2
  have hA : (xs.take k ++ d.take dl.toNat ++ [(dl % 256).toNat]).length - 1 - dl.toNat
      = (xs.take k).length := by
    simp only [List.length_append, List.length_take, List.length_singleton]
    omega
  rw [hA, List.append_assoc, List.drop_left, List.take_left']
  simp only [List.length_take]
  omega

theorem candidate_none (l dl : Int) (rand : Nat → Nat) (pos : Nat) (b : List Nat) (x : Nat)
    (xs : List Nat) (hx : XORKeyStream rand pos b = x :: xs) :
    point.candidate none l dl rand pos b = Outcome.ret (((x &&& 1) ||| 2) :: xs) := by
  unfold point.candidate
  simp only [hx]
  have hi : index (x :: xs) 0 = some x := by simp [index]
  have hs : store (x :: xs) 0 ((x &&& 1) ||| 2) = some (((x &&& 1) ||| 2) :: xs) := by
    simp [store]
  simp only [hi, hs]

theorem candidate_some_total (d : List Nat) (l dl : Int) (rand : Nat → Nat) (pos : Nat)
    (b : List Nat) (hb : (b.length : Int) = l) (h0 : 0 ≤ dl) (h1 : dl ≤ l - 1) :
    ∃ cand, point.candidate (some d) l dl rand pos b = Outcome.ret cand := by
  have hlen := XORKeyStream_length rand b pos
  unfold point.candidate
  simp only
  cases hx : XORKeyStream rand pos b with
  | nil => rw [hx] at hlen; simp only [List.length_nil] at hlen; omega
  | cons x xs =>
    rw [hx] at hlen
    simp only [List.length_cons] at hlen
    have hi : index (x :: xs) 0 = some x := by simp [index]
    have hs : store (x :: xs) 0 ((x &&& 1) ||| 2) = some (((x &&& 1) ||| 2) :: xs) := by
      simp [store]
    simp only [hi, hs]
    have hs2 : store (((x &&& 1) ||| 2) :: xs) (l - 1) ((dl % 256).toNat)
        = some ((((x &&& 1) ||| 2) :: xs).set (l - 1).toNat ((dl % 256).toNat)) := by
      unfold store
      rw [if_pos (by simp only [List.length_cons]; omega)]
    simp only [hs2]
    unfold copyInto
    rw [if_pos (by simp only [List.length_set, List.length_cons]; omega)]
    exact ⟨_, rfl⟩

theorem XORKeyStream_cons (rand : Nat → Nat) (pos : Nat) (b : List Nat) (h : 0 < b.length) :
    ∃ x xs, XORKeyStream rand pos b = x :: xs := by
  cases b with
  | nil => simp at h
  | cons a as => exact ⟨_, _, rfl⟩

/-! ## The concrete engines meet the contracts; secret arithmetic -/

theorem weierstrass_DecodesX (p a b n : Nat) : (weierstrass p a b n).DecodesX := by
  intro buf pt h hflag
  simp only [weierstrass, weierstrassDecode] at h
  cases buf with
  | nil => simp at h
  | cons f xs =>
    simp only at h
    have hf : f = 2 ∨ f = 3 := by
      simp only [List.head?_cons, Option.some.injEq] at hflag
      exact hflag
    rw [if_neg (by intro hc; omega)] at h
    generalize rootOfParity p _ f = y at h
    by_cases h1 : (f = 2 ∨ f = 3) ∧ xs.length = (bignum.BitLen p + 7) / 8
    · rw [if_pos h1] at h
      by_cases h2 : fromBE xs < p
      · rw [if_pos h2] at h
        by_cases h3 : onCurve p a b (Point.affine (fromBE xs) y) = true
        · rw [if_pos h3] at h
          injection h with h
          exact ⟨y, h.symm⟩
        · rw [if_neg h3] at h; cases h
      · rw [if_neg h2] at h; cases h
    · rw [if_neg h1, if_neg (by intro hc; omega)] at h
      cases h

theorem weierstrass_DecodesOnCurve (p a b n : Nat) : (weierstrass p a b n).DecodesOnCurve := by
  intro buf pt h
  simp only [weierstrass, weierstrassDecode] at h
  simp only [weierstrass]
  cases buf with
  | nil => simp at h
  | cons f xs =>
    simp only at h
    generalize rootOfParity p _ f = y at h
    generalize fromBE (xs.take ((bignum.BitLen p + 7) / 8)) = x2 at h
    generalize fromBE (xs.drop ((bignum.BitLen p + 7) / 8)) = y2 at h
    by_cases h0 : f = 0 ∧ xs = []
    · rw [if_pos h0] at h
      injection h with h
      subst h
      rfl
    · rw [if_neg h0] at h
      by_cases h1 : (f = 2 ∨ f = 3) ∧ xs.length = (bignum.BitLen p + 7) / 8
      · rw [if_pos h1] at h
        by_cases h2 : fromBE xs < p
        · rw [if_pos h2] at h
          by_cases h3 : onCurve p a b (Point.affine (fromBE xs) y) = true
          · rw [if_pos h3] at h
            injection h with h
            subst h
            exact h3
          · rw [if_neg h3] at h; cases h
        · rw [if_neg h2] at h; cases h
      · rw [if_neg h1] at h
        by_cases h4 : (f = 4 ∨ f = 6 ∨ f = 7) ∧ xs.length = 2 * ((bignum.BitLen p + 7) / 8)
        · rw [if_pos h4] at h
          by_cases h5 : x2 < p ∧ y2 < p ∧ (f = 4 ∨ y2 % 2 = f % 2)
          · rw [if_pos h5] at h
            by_cases h6 : onCurve p a b (Point.affine x2 y2) = true
            · rw [if_pos h6] at h
              injection h with h
              subst h
              exact h6
            · rw [if_neg h6] at h; cases h
          · rw [if_neg h5] at h; cases h
        · rw [if_neg h4] at h; cases h

theorem Neg_eq (c : curve) (x : Nat) (hx : x < c.n) :
    secret.Neg c x = Outcome.ret ((c.n - x) % c.n) := by
  unfold secret.Neg BN_mod_sub
  rw [if_neg (by omega)]
  simp only
  congr 1
  have h1 : ((c.n : Int) - (x : Int)) = ((c.n - x : Nat) : Int) := by omega
  rw [h1]
  have h2 : (((c.n - x : Nat) : Int) % (c.n : Int)) = (((c.n - x) % c.n : Nat) : Int) := by
    norm_cast
  rw [h2, Int.toNat_ofNat]

theorem Add_eq (c : curve) (x y : Nat) (hn : c.n ≠ 0) :
    secret.Add c x y = Outcome.ret ((x + y) % c.n) := by
  unfold secret.Add BN_mod_add
  rw [if_neg hn]

theorem bind_ret_elim {α β γ : Type} (o : Outcome (α × β)) (f : α → Outcome γ) (v : γ)
    (h : o.bind (fun r => f r.1) = Outcome.ret v) :
    ∃ a b, o = Outcome.ret (a, b) ∧ f a = Outcome.ret v := by
  cases o with
  | ret r => exact ⟨r.1, r.2, rfl, h⟩
  | panic => cases h
  | diverge => cases h

/-! ## The claims -/

/-- Splitting of the input by `Pick`, whenever the consumed length
`dl = min(PickLen(), len(data))` fits the single length byte. -/
theorem Pick_splits_of_dl_le (g : Group) (hg : g.DecodesX) (data : List Nat) (rand : Nat → Nat)
    (fuel : Nat) (pt : Point) (rem : Option (List Nat))
    (hbytes : ∀ v ∈ data, v < 256)
    (hsmall : min (point.PickLen (curve.initNamedCurve g)) (data.length : Int) ≤ 255)
    (hret : point.Pick (curve.initNamedCurve g) (some data) rand fuel = Outcome.ret (pt, rem)) :
    ∃ dl : Nat, (dl : Int) = min (point.PickLen (curve.initNamedCurve g)) (data.length : Int) ∧
      rem = some (data.drop dl) ∧
      point.Data (curve.initNamedCurve g) pt = Outcome.ret (Except.ok (data.take dl)) ∧
      data.take dl ++ data.drop dl = data ∧
      (data.drop dl = [] ↔ (data.length : Int) ≤ point.PickLen (curve.initNamedCurve g)) := by
  have hmin := pickDl_eq_min (curve.initNamedCurve g) (some data)
  simp only [len] at hmin
  obtain ⟨h0, hrem, hD⟩ :=
    Pick_some_spec g hg data rand fuel pt rem hbytes (by rw [hmin]; exact hsmall) hret
  refine ⟨(point.pickDl (curve.initNamedCurve g) (some data)).toNat, ?_, hrem, hD,
    List.take_append_drop _ _, ?_⟩
  · rw [← hmin]; omega
  · rw [List.drop_eq_nil_iff]
    omega

/-- On a field prime of at most 2063 bits `PickLen()` is at most 255: every embedded length
fits the length byte. -/
theorem PickLen_le_255 (g : Group) (hbits : bignum.BitLen g.field ≤ 2063) :
    point.PickLen (curve.initNamedCurve g) ≤ 255 := by
  rw [PickLen_init]
  by_cases h16 : (16 : Int) ≤ (bignum.BitLen g.field : Int)
  · rw [tdiv8_nonneg _ (by omega)]; omega
  · rw [tdiv8_neg _ (by omega)]; omega

/-- Claim C2: on every curve whose field prime has at most 2063 bits (so that `PickLen()` is
at most 255, as on every curve the engine resolves by name), for every non-nil `data` of any
length and every key stream on which `Pick` returns, with `dl = min(PickLen(), len(data))`,
`Pick` returns exactly `data[dl:]` as the remainder, `Data()` on the returned point returns
exactly `data[:dl]`, payload followed by remainder is `data`, and the remainder is empty
exactly when `len(data) <= PickLen()`. -/
theorem Pick_splits_input (g : Group) (hg : g.DecodesX) (data : List Nat) (rand : Nat → Nat)
    (fuel : Nat) (pt : Point) (rem : Option (List Nat))
    (hbytes : ∀ v ∈ data, v < 256)
    (hbits : bignum.BitLen g.field ≤ 2063)
    (hret : point.Pick (curve.initNamedCurve g) (some data) rand fuel = Outcome.ret (pt, rem)) :
    ∃ dl : Nat, (dl : Int) = min (point.PickLen (curve.initNamedCurve g)) (data.length : Int) ∧
      rem = some (data.drop dl) ∧
      point.Data (curve.initNamedCurve g) pt = Outcome.ret (Except.ok (data.take dl)) ∧
      data.take dl ++ data.drop dl = data ∧
      (data.drop dl = [] ↔ (data.length : Int) ≤ point.PickLen (curve.initNamedCurve g)) := by
  have h255 := PickLen_le_255 g hbits
  exact Pick_splits_of_dl_le g hg data rand fuel pt rem hbytes (by omega) hret

/-- Claim C1, as amended: for every non-nil payload `data` of at most `PickLen()` bytes and
at most 255 bytes (so that the length fits the single length byte), and every key stream and
fuel on which `Pick(data, rand)` returns, `Data()` on the returned point succeeds and returns
exactly `data`. The engine is any group whose decoder meets the compressed-form contract. -/
theorem Pick_Data_roundtrip (g : Group) (hg : g.DecodesX) (data : List Nat) (rand : Nat → Nat)
    (fuel : Nat) (pt : Point) (rem : Option (List Nat))
    (hbytes : ∀ v ∈ data, v < 256)
    (hlen : (data.length : Int) ≤ point.PickLen (curve.initNamedCurve g))
    (h255 : data.length ≤ 255)
    (hret : point.Pick (curve.initNamedCurve g) (some data) rand fuel = Outcome.ret (pt, rem)) :
    point.Data (curve.initNamedCurve g) pt = Outcome.ret (Except.ok data) := by
  have hmin := pickDl_eq_min (curve.initNamedCurve g) (some data)
  simp only [len] at hmin
  obtain ⟨_, _, hD⟩ :=
    Pick_some_spec g hg data rand fuel pt rem hbytes (by omega) hret
  rw [hD]
  congr 2
  apply List.take_of_length_le
  omega

/-- Claim C6: for every key stream on which `Pick(nil, rand)` returns, the returned point
passes `Valid()` (the decoder accepted it), the returned remainder is `nil`, and every
candidate buffer built with a nil payload has the length of the buffer and agrees with the
key-stream output at every index from 1 on: only the flag byte is overwritten. -/
theorem Pick_nil (g : Group) (hg : g.DecodesOnCurve) (rand : Nat → Nat) (fuel : Nat)
    (pt : Point) (rem : Option (List Nat))
    (hret : point.Pick (curve.initNamedCurve g) none rand fuel = Outcome.ret (pt, rem)) :
    point.Valid (curve.initNamedCurve g) pt = true ∧ rem = none ∧
    (∀ pos b cand,
      point.candidate none (curve.PointLen (curve.initNamedCurve g))
        (point.pickDl (curve.initNamedCurve g) none) rand pos b = Outcome.ret cand →
      cand.length = b.length ∧
        ∀ i : Nat, 1 ≤ i → cand[i]? = (XORKeyStream rand pos b)[i]?) := by
  have hpl := plen_init g
  obtain ⟨pos, b, cand, hb, hc, ho, hs⟩ :=
    Pick_ret (curve.initNamedCurve g) none rand fuel pt rem (by omega) hret
  refine ⟨hg cand pt ho, ?_, ?_⟩
  · unfold sliceFrom at hs
    split at hs
    · injection hs with hs; rw [← hs]; rfl
    · cases hs
  · intro pos b cand hc
    refine ⟨candidate_length _ _ _ _ _ _ _ hc, ?_⟩
    intro i hi
    cases hx : XORKeyStream rand pos b with
    | nil =>
      unfold point.candidate at hc
      simp [hx, index] at hc
    | cons x xs =>
      rw [candidate_none _ _ _ _ _ x xs hx] at hc
      injection hc with hc
      subst hc
      obtain ⟨j, rfl⟩ : ∃ j, i = j + 1 := ⟨i - 1, by omega⟩
      simp

/-- Claim C9: for every field prime of at least 16 bits and every `data` (nil included),
with `l = PointLen() = 1 + ceil(bitlength(p) / 8)` and `dl = min(PickLen(), len(data))`, one
pass of the loop of `Pick` on an `l`-byte buffer builds a candidate without panicking;
`dl >= 0`, `l - dl - 1 >= 2` and `8 * (dl + 1) + 8 <= bitlength(p)`; the candidate agrees
with the key-stream output at every index from 1 up to `l - dl - 1` (so `b[1]` is never
overwritten), and its flag byte is the key-stream byte forced to 2 or 3. -/
theorem candidate_layout (g : Group) (h16 : 16 ≤ bignum.BitLen g.field)
    (data : Option (List Nat)) (rand : Nat → Nat) (pos : Nat) (b : List Nat)
    (hb : (b.length : Int) = curve.PointLen (curve.initNamedCurve g)) :
    curve.PointLen (curve.initNamedCurve g) = 1 + (((bignum.BitLen g.field + 7) / 8 : Nat) : Int) ∧
    point.pickDl (curve.initNamedCurve g) data
      = min (point.PickLen (curve.initNamedCurve g)) (len data) ∧
    0 ≤ point.pickDl (curve.initNamedCurve g) data ∧
    2 ≤ curve.PointLen (curve.initNamedCurve g) - point.pickDl (curve.initNamedCurve g) data - 1 ∧
    8 * (point.pickDl (curve.initNamedCurve g) data + 1) + 8 ≤ (bignum.BitLen g.field : Int) ∧
    ∃ cand x, point.candidate data (curve.PointLen (curve.initNamedCurve g))
        (point.pickDl (curve.initNamedCurve g) data) rand pos b = Outcome.ret cand ∧
      cand.length = b.length ∧
      (XORKeyStream rand pos b)[0]? = some x ∧
      cand[0]? = some ((x &&& 1) ||| 2) ∧
      (cand[0]? = some 2 ∨ cand[0]? = some 3) ∧
      (∀ i : Nat, 1 ≤ i →
        (i : Int) < curve.PointLen (curve.initNamedCurve g)
            - point.pickDl (curve.initNamedCurve g) data - 1 →
        cand[i]? = (XORKeyStream rand pos b)[i]?) := by
  have hpl := plen_init g
  have hP2 := PickLen_le_plen_sub_two g
  have hPL := PickLen_init g
  have hmin := pickDl_eq_min (curve.initNamedCurve g) data
  have hlen0 : 0 ≤ len data := by unfold len; split <;> omega
  rw [tdiv8_nonneg _ (by omega)] at hPL
  have hpt : curve.PointLen (curve.initNamedCurve g)
      = 1 + (((bignum.BitLen g.field + 7) / 8 : Nat) : Int) := by
    unfold curve.PointLen; rw [hpl]
  have hdl0 : 0 ≤ point.pickDl (curve.initNamedCurve g) data := by omega
  refine ⟨hpt, hmin, hdl0, by omega, by omega, ?_⟩
  obtain ⟨x, xs, hx⟩ := XORKeyStream_cons rand pos b (by omega)
  have hflag : ∀ bs : List Nat, bs[0]? = some ((x &&& 1) ||| 2) →
      (bs[0]? = some 2 ∨ bs[0]? = some 3) := by
    intro bs hc
    rw [hc]
    rcases flag_eq x with e | e <;> rw [e] <;> simp
  cases data with
  | none =>
    refine ⟨_, x, candidate_none _ _ _ _ _ x xs hx, ?_, by rw [hx]; simp, by simp,
      hflag _ (by simp), ?_⟩
    · have := XORKeyStream_length rand b pos
      rw [hx] at this
      simpa using this
    · intro i hi _
      obtain ⟨j, rfl⟩ : ∃ j, i = j + 1 := ⟨i - 1, by omega⟩
      rw [hx]
      simp
  | some d =>
    obtain ⟨cand, hc⟩ := candidate_some_total d _ _ rand pos b hb hdl0 (by omega)
    have hdl1 := pickDl_le_len (curve.initNamedCurve g) (some d)
    simp only [len] at hdl1
    obtain ⟨_, _, x2, xs2, hx2, hcand⟩ := candidate_some d _ _ rand pos b cand hb hdl1 hc
    rw [hx] at hx2
    injection hx2 with e1 e2
    subst e1; subst e2
    generalize hk : (curve.PointLen (curve.initNamedCurve g)
      - point.pickDl (curve.initNamedCurve g) (some d) - 1).toNat = k at hcand
    have hxl := XORKeyStream_length rand b pos
    rw [hx] at hxl
    simp only [List.length_cons] at hxl
    have hc0 : cand[0]? = some ((x &&& 1) ||| 2) := by
      obtain ⟨j, rfl⟩ : ∃ j, k = j + 1 := ⟨k - 1, by omega⟩
      rw [hcand]
      simp
    refine ⟨cand, x, hc, candidate_length _ _ _ _ _ _ _ hc, by rw [hx]; simp, hc0,
      hflag _ hc0, ?_⟩
    intro i hi hlt
    obtain ⟨j, rfl⟩ : ∃ j, i = j + 1 := ⟨i - 1, by omega⟩
    rw [hcand, hx, List.append_assoc,
      List.getElem?_append_left (by simp only [List.length_take, List.length_cons]; omega),
      List.getElem?_take_of_lt (by omega)]
    simp

/-- Claim C3: for every affine point with `x` below the field prime, with `b` the big-endian
bytes of `x` on exactly `plen` bytes and `dl = b[plen-1]`, `Data()` returns the error
"invalid embedded data length" exactly when `dl > PickLen()`; otherwise it returns without
error the `dl` bytes of `b` that precede the length byte, a result of length `dl`. -/
theorem Data_error_iff (g : Group) (x y : Nat) (hx : x < g.field) :
    ∃ b : List Nat, ∃ dl : Nat,
      b = toBE (curve.initNamedCurve g).plen.toNat x ∧
      b.length = (curve.initNamedCurve g).plen.toNat ∧ fromBE b = x ∧
      b[(curve.initNamedCurve g).plen.toNat - 1]? = some dl ∧
      (point.Data (curve.initNamedCurve g) (Point.affine x y)
          = Outcome.ret (Except.error "invalid embedded data length")
        ↔ (dl : Int) > point.PickLen (curve.initNamedCurve g)) ∧
      (¬ (dl : Int) > point.PickLen (curve.initNamedCurve g) →
        point.Data (curve.initNamedCurve g) (Point.affine x y)
          = Outcome.ret (Except.ok
              ((b.drop ((curve.initNamedCurve g).plen.toNat - 1 - dl)).take dl)) ∧
        ((b.drop ((curve.initNamedCurve g).plen.toNat - 1 - dl)).take dl).length = dl) := by
  have h1 := plen_pos_of_lt g x hx
  have hpl := plen_init g
  have hle := PickLen_le_plen g h1
  have hD := Data_init g x y hx
  refine ⟨_, x % 256, rfl, toBE_length _ _, ?_, ?_, ?_, ?_⟩
  · rw [fromBE_toBE]
    apply Nat.mod_eq_of_lt
    have h2 := lt_pow_numBytes x
    have h3 := numBytes_le_plen g x hx
    exact Nat.lt_of_lt_of_le h2 (Nat.pow_le_pow_right (by norm_num) h3)
  · rw [toBE_getElem _ _ _ (by omega)]
    have : (curve.initNamedCurve g).plen.toNat - 1 - ((curve.initNamedCurve g).plen.toNat - 1) = 0 := by
      omega
    simp [this]
  · rw [hD]
    constructor
    · intro h
      by_contra hc
      rw [if_neg hc] at h
      simp at h
    · intro h
      rw [if_pos h]
      rfl
  · intro h
    rw [hD, if_neg h]
    refine ⟨rfl, ?_⟩
    rw [List.length_take, List.length_drop, toBE_length]
    omega

/-- Claim C10: for every field prime (of any bit length, below 16 bits included) and every
affine point with `x` below it, the index `b[plen-1]` and, when the length check passes, the
slice `b[plen-dl-1 : plen-1]` taken in `Data()` are within the bounds of the padded buffer,
and `Data()` returns either the length error or a payload: it never panics. -/
theorem Data_never_panics (g : Group) (x y : Nat) (hx : x < g.field) :
    (∃ v : Nat, index (point.padded (curve.initNamedCurve g) x)
          ((curve.initNamedCurve g).plen - 1) = some v ∧
        (¬ (v : Int) > point.PickLen (curve.initNamedCurve g) →
          ∃ r, slice (point.padded (curve.initNamedCurve g) x)
            ((curve.initNamedCurve g).plen - (v : Int) - 1)
            ((curve.initNamedCurve g).plen - 1) = some r)) ∧
    (point.Data (curve.initNamedCurve g) (Point.affine x y)
        = Outcome.ret (Except.error errInvalidLength) ∨
      ∃ payload, point.Data (curve.initNamedCurve g) (Point.affine x y)
        = Outcome.ret (Except.ok payload)) := by
  have h1 := plen_pos_of_lt g x hx
  have hpl := plen_init g
  have hle := PickLen_le_plen g h1
  have hD := Data_init g x y hx
  have hp := padded_eq (curve.initNamedCurve g) x (numBytes_le_plen g x hx)
  constructor
  · refine ⟨x % 256, ?_, ?_⟩
    · rw [hp]
      unfold index
      rw [if_pos (by omega), toBE_getElem _ _ _ (by omega)]
      have : (curve.initNamedCurve g).plen.toNat - 1 - ((curve.initNamedCurve g).plen - 1).toNat = 0 := by
        omega
      simp [this]
    · intro h
      rw [hp]
      unfold slice
      rw [if_pos (by rw [toBE_length]; omega)]
      exact ⟨_, rfl⟩
  · rw [hD]
    split
    · exact Or.inl rfl
    · exact Or.inr ⟨_, rfl⟩

/-- Claim C7: for valid secrets `x`, `y` (values below the group order `n`), `Neg(x)` returns
`(n - x) mod n`, a value below `n` that is 0 when `x = 0`; `Add(x, Neg(x))` is the zero
secret; and `Add(x, y)` equals `Add(y, x)`, both being `(x + y) mod n`. -/
theorem Neg_is_additive_inverse (c : curve) (x y : Nat) (hx : x < c.n) (hy : y < c.n) :
    ∃ r, secret.Neg c x = Outcome.ret r ∧ r = (c.n - x) % c.n ∧ r < c.n ∧
      (x = 0 → r = 0) ∧
      secret.Add c x r = Outcome.ret 0 ∧
      secret.Add c x y = secret.Add c y x ∧
      secret.Add c x y = Outcome.ret ((x + y) % c.n) := by
  have hn : c.n ≠ 0 := by omega
  refine ⟨(c.n - x) % c.n, Neg_eq c x hx, rfl, Nat.mod_lt _ (by omega), ?_, ?_, ?_, Add_eq c x y hn⟩
  · intro h0
    subst h0
    simp
  · rw [Add_eq c _ _ hn]
    congr 1
    rw [Nat.add_mod_mod]
    have : x + (c.n - x) = c.n := by omega
    rw [this, Nat.mod_self]
  · rw [Add_eq c _ _ hn, Add_eq c _ _ hn, Nat.add_comm]

theorem Equal_iff (x y : Nat) : secret.Equal x y = true ↔ x = y := by
  unfold secret.Equal bignum.Cmp
  simp only [decide_eq_true_eq]
  constructor
  · intro h
    split at h
    · omega
    · split at h
      · assumption
      · omega
  · intro h
    subst h
    simp

theorem Obtained_reduced (c : curve) (x : Nat)
    (h : secret.Obtained c (fun buf => fromBE buf < c.n) x) :
    (c.n = 0 ∧ x = 0) ∨ x < c.n := by
  induction h with
  | factory =>
    unfold newSecret
    omega
  | add x y z _ _ hz _ _ =>
    unfold secret.Add BN_mod_add at hz
    split at hz
    · next hm => split at hm <;> cases hm; cases hz
    · next r hm =>
      split at hm
      · cases hm
      · next hn =>
        injection hm with hm
        injection hz with hz
        subst hm; subst hz
        right
        exact Nat.mod_lt _ (by omega)
  | neg x z _ hz _ =>
    unfold secret.Neg BN_mod_sub at hz
    split at hz
    · cases hz
    · next r hm =>
      split at hm
      · cases hm
      · next hn =>
        injection hm with hm
        injection hz with hz
        subst hm; subst hz
        right
        have hpos : (0 : Int) < (c.n : Int) := by omega
        have := Int.emod_lt_of_pos ((c.n : Int) - (x : Int)) hpos
        have := Int.emod_nonneg ((c.n : Int) - (x : Int)) (by omega : (c.n : Int) ≠ 0)
        omega
  | pick v hv => right; exact hv
  | decode buf _ hb => right; exact hb

/-- Claim C8, as amended: for secrets obtained through the factory, `Add`, `Neg`, `Pick`, and
`Decode` of buffers whose value is below the group order `n`, `Equal` is true exactly when
the values are congruent modulo `n`, and (for `n` non-zero) both stored values lie in
`[0, n)`. -/
theorem Equal_iff_congruent (c : curve) (x y : Nat)
    (hx : secret.Obtained c (fun buf => fromBE buf < c.n) x)
    (hy : secret.Obtained c (fun buf => fromBE buf < c.n) y) :
    (secret.Equal x y = true ↔ x ≡ y [MOD c.n]) ∧
    (c.n ≠ 0 → x < c.n ∧ y < c.n) := by
  have h1 := Obtained_reduced c x hx
  have h2 := Obtained_reduced c y hy
  refine ⟨?_, fun hn => ⟨by omega, by omega⟩⟩
  rw [Equal_iff]
  unfold Nat.ModEq
  constructor
  · intro h; rw [h]
  · intro h
    rcases h1 with ⟨hn, hx0⟩ | hx1
    · rcases h2 with ⟨_, hy0⟩ | hy1
      · omega
      · omega
    · rcases h2 with ⟨hn, _⟩ | hy1
      · omega
      · rwa [Nat.mod_eq_of_lt hx1, Nat.mod_eq_of_lt hy1] at h

/-- Claim C5, at the failing input: `point.Decode` on the empty buffer panics (the index
`buf[0]` is out of range) instead of returning an error. -/
theorem Decode_empty_panics (c : curve) : point.Decode c [] = Outcome.panic := by
  rfl

theorem Decode_nonempty (c : curve) (f : Nat) (xs : List Nat) :
    point.Decode c (f :: xs) = Outcome.ret (c.g.oct2point (f :: xs)) := by
  unfold point.Decode
  simp only [index]
  cases c.g.oct2point (f :: xs) <;> simp

/-- Claim C4, as amended: `PickLen()` depends only on the field prime and is
`(bitlength(p) - 16) / 8` rounded toward zero: the floor when `bitlength(p) >= 16`, the
negated floor of `(16 - bitlength(p)) / 8` below that; for a bit length of 256 it is 30. -/
theorem PickLen_formula (c : curve) :
    (∀ c2 : curve, c2.p = c.p → point.PickLen c2 = point.PickLen c) ∧
    (16 ≤ bignum.BitLen c.p →
      point.PickLen c = Int.fdiv ((bignum.BitLen c.p : Int) - 16) 8) ∧
    (bignum.BitLen c.p < 16 →
      point.PickLen c = -(Int.fdiv (16 - (bignum.BitLen c.p : Int)) 8)) ∧
    (bignum.BitLen c.p = 256 → point.PickLen c = 30) := by
  refine ⟨?_, ?_, ?_, ?_⟩
  · intro c2 h
    unfold point.PickLen
    rw [h]
  · intro h
    unfold point.PickLen
    rw [tdiv8_nonneg _ (by omega), Int.fdiv_eq_ediv _ (by norm_num)]
    omega
  · intro h
    unfold point.PickLen
    rw [tdiv8_neg _ (by omega), Int.fdiv_eq_ediv _ (by norm_num)]
    omega
  · intro h
    unfold point.PickLen
    rw [h, tdiv8_nonneg _ (by omega)]
    omega

/-! ## Concrete instances -/

/-- Witness for C1: on BN254 (`plen = 32`, `PickLen() = 29`) the payload `hello` is picked on the third pass and `Data()` returns it. -/
theorem Pick_Data_roundtrip_witness :
    point.PickLen (curve.initNamedCurve BN254) = 29 ∧
    (curve.initNamedCurve BN254).plen = 32 ∧
    point.Pick (curve.initNamedCurve BN254) (some hello) (keyStream 29) 3
      = Outcome.ret (Point.affine
          539213033953620618325307779736977871728260976279993729960132992392734994181
          2624161733988103776139025937994390180691090437237312126858088721752177462407,
        some []) ∧
    point.Data (curve.initNamedCurve BN254) (Point.affine
          539213033953620618325307779736977871728260976279993729960132992392734994181
          2624161733988103776139025937994390180691090437237312126858088721752177462407)
      = Outcome.ret (Except.ok hello) :=
  ⟨by decide!, by decide!, by decide!,
    Pick_Data_roundtrip BN254 (weierstrass_DecodesX _ _ _ _) hello (keyStream 29) 3
      (Point.affine
          539213033953620618325307779736977871728260976279993729960132992392734994181
          2624161733988103776139025937994390180691090437237312126858088721752177462407)
      (some []) (by decide) (by decide!) (by decide) (by decide!)⟩

/-- Counterexample to C1 as stated: with the nil payload (length 0) on BN254, `Pick` returns a point whose `Data()` yields four stray bytes; and on a 2203-bit field (`PickLen() = 273`) a 256-byte payload is picked into a point whose `Data()` yields the empty payload, the length byte having wrapped to 0. -/
theorem Pick_Data_roundtrip_counterexample :
    (∃ pt rem, point.Pick (curve.initNamedCurve BN254) none (keyStream 48) 4
          = Outcome.ret (pt, rem) ∧
        len none ≤ point.PickLen (curve.initNamedCurve BN254) ∧
        point.Data (curve.initNamedCurve BN254) pt
          = Outcome.ret (Except.ok [60, 160, 108, 248])) ∧
    (∃ pt rem, point.Pick (curve.initNamedCurve wide2203) (some (payload 256)) (keyStream 132) 3
          = Outcome.ret (pt, rem) ∧
        (∀ v ∈ payload 256, v < 256) ∧
        ((payload 256).length : Int) ≤ point.PickLen (curve.initNamedCurve wide2203) ∧
        point.Data (curve.initNamedCurve wide2203) pt = Outcome.ret (Except.ok []) ∧
        point.Data (curve.initNamedCurve wide2203) pt
          ≠ Outcome.ret (Except.ok (payload 256))) := by
  constructor
  · obtain ⟨pt, rem, h1, h2⟩ := bind_ret_elim
      (point.Pick (curve.initNamedCurve BN254) none (keyStream 48) 4)
      (point.Data (curve.initNamedCurve BN254)) (Except.ok [60, 160, 108, 248]) (by decide!)
    exact ⟨pt, rem, h1, by decide!, h2⟩
  · obtain ⟨pt, rem, h1, h2⟩ := bind_ret_elim
      (point.Pick (curve.initNamedCurve wide2203) (some (payload 256)) (keyStream 132) 3)
      (point.Data (curve.initNamedCurve wide2203)) (Except.ok []) (by decide!)
    refine ⟨pt, rem, h1, by decide!, by decide!, h2, ?_⟩
    rw [h2]
    decide!

/-- Witness for C2: on BN254 (a 254-bit field) a 40-byte input is split into the 29-byte
payload `Data()` returns and the 11-byte remainder. -/
theorem Pick_splits_input_witness :
    bignum.BitLen BN254.field ≤ 2063 ∧
    point.Pick (curve.initNamedCurve BN254) (some (payload 40)) (keyStream 33) 3
      = Outcome.ret (Point.affine
          2355214093333416888287836196312843102661320184260345786800142267879194893597
          19666054739430194240763493988905808261434717620318170661838477295246069764917,
        some [30, 31, 32, 33, 34, 35, 36, 37, 38, 39, 40]) ∧
    ∃ dl : Nat,
      (dl : Int) = min (point.PickLen (curve.initNamedCurve BN254)) ((payload 40).length : Int) ∧
      some [30, 31, 32, 33, 34, 35, 36, 37, 38, 39, 40] = some ((payload 40).drop dl) ∧
      point.Data (curve.initNamedCurve BN254) (Point.affine
          2355214093333416888287836196312843102661320184260345786800142267879194893597
          19666054739430194240763493988905808261434717620318170661838477295246069764917)
        = Outcome.ret (Except.ok ((payload 40).take dl)) ∧
      (payload 40).take dl ++ (payload 40).drop dl = payload 40 ∧
      ((payload 40).drop dl = [] ↔
        ((payload 40).length : Int) ≤ point.PickLen (curve.initNamedCurve BN254)) :=
  ⟨by decide!, by decide!,
    Pick_splits_input BN254 (weierstrass_DecodesX _ _ _ _) (payload 40) (keyStream 33) 3
      (Point.affine
          2355214093333416888287836196312843102661320184260345786800142267879194893597
          19666054739430194240763493988905808261434717620318170661838477295246069764917)
      (some [30, 31, 32, 33, 34, 35, 36, 37, 38, 39, 40])
      (by decide!) (by decide!) (by decide!)⟩

/-- The bound on the field width is needed: on a 2203-bit field, with a 300-byte input,
`dl = 273` but the length byte holds `273 % 256 = 17`, and `Data()` returns 17 bytes. -/
theorem length_byte_wraps_on_wide_field :
    ∃ pt rem, point.Pick (curve.initNamedCurve wide2203) (some (payload 300)) (keyStream 154) 3
        = Outcome.ret (pt, rem) ∧
      (∀ v ∈ payload 300, v < 256) ∧
      min (point.PickLen (curve.initNamedCurve wide2203)) ((payload 300).length : Int) = 273 ∧
      point.Data (curve.initNamedCurve wide2203) pt
        = Outcome.ret (Except.ok
            [6, 7, 8, 9, 10, 11, 12, 13, 14, 15, 16, 17, 18, 19, 20, 21, 22]) ∧
      point.Data (curve.initNamedCurve wide2203) pt
        ≠ Outcome.ret (Except.ok ((payload 300).take 273)) := by
  obtain ⟨pt, rem, h1, h2⟩ := bind_ret_elim
    (point.Pick (curve.initNamedCurve wide2203) (some (payload 300)) (keyStream 154) 3)
    (point.Data (curve.initNamedCurve wide2203))
    (Except.ok [6, 7, 8, 9, 10, 11, 12, 13, 14, 15, 16, 17, 18, 19, 20, 21, 22]) (by decide!)
  refine ⟨pt, rem, h1, by decide!, by decide!, h2, ?_⟩
  rw [h2]
  decide!

/-- The decoder of BN254 on the generator `(1, 2)`: the compressed, uncompressed and hybrid
encodings decode to it, and a hybrid flag of the wrong parity is refused. -/
theorem BN254_decodes_generator :
    BN254.oct2point (2 :: toBE 32 1) = Except.ok (Point.affine 1 2) ∧
    BN254.oct2point (4 :: (toBE 32 1 ++ toBE 32 2)) = Except.ok (Point.affine 1 2) ∧
    BN254.oct2point (6 :: (toBE 32 1 ++ toBE 32 2)) = Except.ok (Point.affine 1 2) ∧
    BN254.oct2point (7 :: (toBE 32 1 ++ toBE 32 2)) = Except.error "invalid encoding" := by
  decide!

/-- Witness for C3: the point `(1, 2)` of BN254 has length byte 1 and payload `[0]`. -/
theorem Data_error_iff_witness :
    1 < BN254.field ∧
    point.Data (curve.initNamedCurve BN254) (Point.affine 1 2) = Outcome.ret (Except.ok [0]) ∧
    ∃ b : List Nat, ∃ dl : Nat,
      b = toBE (curve.initNamedCurve BN254).plen.toNat 1 ∧
      b.length = (curve.initNamedCurve BN254).plen.toNat ∧ fromBE b = 1 ∧
      b[(curve.initNamedCurve BN254).plen.toNat - 1]? = some dl ∧
      (point.Data (curve.initNamedCurve BN254) (Point.affine 1 2)
          = Outcome.ret (Except.error "invalid embedded data length")
        ↔ (dl : Int) > point.PickLen (curve.initNamedCurve BN254)) ∧
      (¬ (dl : Int) > point.PickLen (curve.initNamedCurve BN254) →
        point.Data (curve.initNamedCurve BN254) (Point.affine 1 2)
          = Outcome.ret (Except.ok
              ((b.drop ((curve.initNamedCurve BN254).plen.toNat - 1 - dl)).take dl)) ∧
        ((b.drop ((curve.initNamedCurve BN254).plen.toNat - 1 - dl)).take dl).length = dl) :=
  ⟨by decide!, by decide!, Data_error_iff BN254 1 2 (by decide!)⟩

/-- Counterexample to C4 as stated: for the 256-bit prime of P-256 `PickLen()` is 30, not 29; and for the 9-bit prime 263 it is 0 while the floor of `(9 - 16) / 8` is -1. -/
theorem PickLen_formula_counterexample :
    (bignum.BitLen P256.field = 256 ∧ point.PickLen (curve.initNamedCurve P256) = 30 ∧
      point.PickLen (curve.initNamedCurve P256) ≠ 29) ∧
    (bignum.BitLen tiny263.field = 9 ∧ point.PickLen (curve.initNamedCurve tiny263) = 0 ∧
      Int.fdiv ((bignum.BitLen tiny263.field : Int) - 16) 8 = -1 ∧
      point.PickLen (curve.initNamedCurve tiny263)
        ≠ Int.fdiv ((bignum.BitLen (curve.initNamedCurve tiny263).p : Int) - 16) 8) := by
  decide!

/-- Witness for C4: the 256-bit case at the prime of P-256. -/
theorem PickLen_formula_witness :
    bignum.BitLen (curve.initNamedCurve P256).p = 256 ∧
    point.PickLen (curve.initNamedCurve P256) = 30 :=
  ⟨by decide!, (PickLen_formula (curve.initNamedCurve P256)).2.2.2 (by decide!)⟩

/-- Witness for C6: `Pick(nil, rand)` on BN254 returns on the fourth pass, with a valid point and the nil remainder. -/
theorem Pick_nil_witness :
    point.Pick (curve.initNamedCurve BN254) none (keyStream 54) 4
      = Outcome.ret (Point.affine
          14609838063740658916344687174494659552404550786646301330438972061424247169036
          2965623727596620705672290145154435305458699250532271064221062188181213997184,
        none) ∧
    point.Valid (curve.initNamedCurve BN254) (Point.affine
          14609838063740658916344687174494659552404550786646301330438972061424247169036
          2965623727596620705672290145154435305458699250532271064221062188181213997184) = true :=
  ⟨by decide!,
    (Pick_nil BN254 (weierstrass_DecodesOnCurve _ _ _ _) (keyStream 54) 4
      (Point.affine
          14609838063740658916344687174494659552404550786646301330438972061424247169036
          2965623727596620705672290145154435305458699250532271064221062188181213997184)
      none (by decide!)).1⟩

/-- Witness for C7: the secrets 5 and 7 modulo the order of BN254. -/
theorem Neg_is_additive_inverse_witness :
    5 < (curve.initNamedCurve BN254).n ∧ 7 < (curve.initNamedCurve BN254).n ∧
    ∃ r, secret.Neg (curve.initNamedCurve BN254) 5 = Outcome.ret r ∧
      r = ((curve.initNamedCurve BN254).n - 5) % (curve.initNamedCurve BN254).n ∧
      r < (curve.initNamedCurve BN254).n ∧ (5 = 0 → r = 0) ∧
      secret.Add (curve.initNamedCurve BN254) 5 r = Outcome.ret 0 ∧
      secret.Add (curve.initNamedCurve BN254) 5 7 = secret.Add (curve.initNamedCurve BN254) 7 5 ∧
      secret.Add (curve.initNamedCurve BN254) 5 7
        = Outcome.ret ((5 + 7) % (curve.initNamedCurve BN254).n) :=
  ⟨by decide!, by decide!,
    Neg_is_additive_inverse (curve.initNamedCurve BN254) 5 7 (by decide!) (by decide!)⟩

/-- Witness for C8: the secret decoded from the byte 5 and the sum of the secrets 2 and 3. -/
theorem Equal_iff_congruent_witness :
    secret.Obtained (curve.initNamedCurve BN254)
      (fun buf => fromBE buf < (curve.initNamedCurve BN254).n) (secret.Decode [5]) ∧
    secret.Obtained (curve.initNamedCurve BN254)
      (fun buf => fromBE buf < (curve.initNamedCurve BN254).n) 5 ∧
    ((secret.Equal (secret.Decode [5]) 5 = true
        ↔ secret.Decode [5] ≡ 5 [MOD (curve.initNamedCurve BN254).n]) ∧
      ((curve.initNamedCurve BN254).n ≠ 0 →
        secret.Decode [5] < (curve.initNamedCurve BN254).n ∧
          5 < (curve.initNamedCurve BN254).n)) :=
  have h1 : secret.Obtained (curve.initNamedCurve BN254)
      (fun buf => fromBE buf < (curve.initNamedCurve BN254).n) (secret.Decode [5]) :=
    secret.Obtained.decode [5] (by decide) (by decide!)
  have h2 : secret.Obtained (curve.initNamedCurve BN254)
      (fun buf => fromBE buf < (curve.initNamedCurve BN254).n) 5 :=
    secret.Obtained.add 2 3 5
      (secret.Obtained.pick 2 (by unfold RandModResult; decide!))
      (secret.Obtained.pick 3 (by unfold RandModResult; decide!)) (by decide!)
  ⟨h1, h2, Equal_iff_congruent (curve.initNamedCurve BN254) (secret.Decode [5]) 5 h1 h2⟩

/-- Counterexample to C8 as stated: decoding the bytes of the group order `n` gives a secret that is congruent to the zero secret of the factory, is not `Equal` to it, and is not below `n`. -/
theorem Equal_iff_congruent_counterexample :
    ∃ x y,
      secret.Obtained (curve.initNamedCurve BN254) (fun _ => True) x ∧
      secret.Obtained (curve.initNamedCurve BN254) (fun _ => True) y ∧
      x ≡ y [MOD (curve.initNamedCurve BN254).n] ∧
      secret.Equal x y = false ∧ ¬ x < (curve.initNamedCurve BN254).n :=
  ⟨secret.Decode (bignum.Bytes (curve.initNamedCurve BN254).n), newSecret,
    secret.Obtained.decode _ (toBE_lt _ _) trivial,
    secret.Obtained.factory,
    by unfold Nat.ModEq; decide!, by decide!, by decide!⟩

/-- Witness for C9: BN254 with the payload `hello`: `dl = 5` and the overlay starts at index 27 of the 33-byte buffer. -/
theorem candidate_layout_witness :
    16 ≤ bignum.BitLen BN254.field ∧
    ((List.replicate 33 0).length : Int) = curve.PointLen (curve.initNamedCurve BN254) ∧
    point.pickDl (curve.initNamedCurve BN254) (some hello) = 5 ∧
    2 ≤ curve.PointLen (curve.initNamedCurve BN254)
      - point.pickDl (curve.initNamedCurve BN254) (some hello) - 1 ∧
    8 * (point.pickDl (curve.initNamedCurve BN254) (some hello) + 1) + 8
      ≤ (bignum.BitLen BN254.field : Int) :=
  have h := candidate_layout BN254 (by decide!) (some hello) (keyStream 29) 0
    (List.replicate 33 0) (by decide!)
  ⟨by decide!, by decide!, by decide!, h.2.2.2.1, h.2.2.2.2.1⟩

/-- Witness for C10: on the 9-bit prime 263 (`PickLen() = 0`) the point `(258, 26)` has length byte 2 and `Data()` returns the length error. -/
theorem Data_never_panics_witness :
    258 < tiny263.field ∧
    point.PickLen (curve.initNamedCurve tiny263) = 0 ∧
    point.Valid (curve.initNamedCurve tiny263) (Point.affine 258 26) = true ∧
    point.Data (curve.initNamedCurve tiny263) (Point.affine 258 26)
      = Outcome.ret (Except.error errInvalidLength) ∧
    (point.Data (curve.initNamedCurve tiny263) (Point.affine 258 26)
        = Outcome.ret (Except.error errInvalidLength) ∨
      ∃ payload, point.Data (curve.initNamedCurve tiny263) (Point.affine 258 26)
        = Outcome.ret (Except.ok payload)) :=
  ⟨by decide!, by decide!, by decide!, by decide!,
    (Data_never_panics tiny263 258 26 (by decide!)).2⟩

end openssl
